import Mathlib

/-!
Verification of the try/finally rewriter core
(`hphp/hack/src/hackc/emitter/try_finally_rewriter.rs`).

The instruction type, the exit scanner (`JumpInstructions::collect`), the
try-body cleaner, the return lowering, the break/continue lowering and the
finally-epilogue builder are embedded from the Rust source.  The external
collaborators that are not part of the reviewed sources (the jump-target
stack of `jump_targets.rs`, the exit-id allocator, the label/local
generators, the fatal emitter and the reified-generics return-verification
helper) are modelled from the specification; every such definition is
marked `Modelled from the spec:` in its doc comment.

Instruction sequences (`InstrSeq`) are modelled as flat lists of
instructions: `InstrSeq::gather` is list concatenation and iteration is
list traversal, which matches the flattened in-order view the rewriter
uses.
-/

set_option maxRecDepth 8000

/-- The VM instruction variants referenced by the try/finally rewriter
(from `hhbc_ast.rs` and the `instr::` constructors used in
`try_finally_rewriter.rs`).  `other` stands for any of the remaining
instruction variants, none of which is inspected by the rewriter. -/
inductive Instruct where
  | retC
  | retCSuspended
  | retM (n : Nat)
  | break_ (level : Nat)
  | continue_ (level : Nat)
  | jmp (l : Nat)
  | jmpZ (l : Nat)
  | iterBreak (l : Nat) (iters : List Nat)
  | label (l : Nat)
  | switch (ls : List Nat)
  | setL (loc : Nat)
  | cGetL (loc : Nat)
  | isSetL (loc : Nat)
  | unsetL (loc : Nat)
  | popC
  | int (i : Int)
  | iterFree (it : Nat)
  | srcLoc (p : Nat)
  | fatal (p : Nat) (level : Nat)
  | other (tag : Nat)
  deriving DecidableEq

/-- Modelled from the spec: one frame of the jump-target stack
(`jump_targets.rs` is not among the reviewed sources).  A frame is a loop
(break label, continue label, live iterators), a switch (break label) or a
try/finally region (finally label, live iterators); the innermost frame is
the head of the list. -/
inductive JumpTarget where
  | loopFrame (breakLabel continueLabel : Nat) (iters : List Nat)
  | switchFrame (breakLabel : Nat)
  | tryFinallyFrame (finallyLabel : Nat) (iters : List Nat)
  deriving DecidableEq

/-- The result of resolving `break N` / `continue N` against the
jump-target stack (`jt::ResolvedJumpTarget`). -/
inductive ResolvedJumpTarget where
  | notFound
  | resolvedRegular (targetLabel : Nat) (itersToRelease : List Nat)
  | resolvedTryFinally (targetLabel finallyLabel : Nat)
      (itersToRelease : List Nat) (adjustedLevel : Nat)
  deriving DecidableEq

/-- Modelled from the spec: resolution of `break N` / `continue N`.  Walks
the stack innermost-first, counting loop/switch frames and accumulating the
iterators that a jump must release; the first finally frame crossed before
the destination turns the result into `resolvedTryFinally` with that
(nearest) finally's label and the residual level. -/
def resolveJumpTarget (isBreak : Bool) :
    List JumpTarget → Nat → List Nat → ResolvedJumpTarget
  | [], _, _ => .notFound
  | .loopFrame bl cl its :: rest, level, acc =>
      if level == 1 then
        .resolvedRegular (if isBreak then bl else cl)
          (acc ++ if isBreak then its else [])
      else resolveJumpTarget isBreak rest (level - 1) (acc ++ its)
  | .switchFrame bl :: rest, level, acc =>
      if level == 1 then .resolvedRegular bl acc
      else resolveJumpTarget isBreak rest (level - 1) acc
  | .tryFinallyFrame fl _ :: rest, level, acc =>
      match resolveJumpTarget isBreak rest level [] with
      | .notFound => .notFound
      | .resolvedRegular t _ => .resolvedTryFinally t fl acc level
      | .resolvedTryFinally t _ _ _ => .resolvedTryFinally t fl acc level

/-- Modelled from the spec: `jump_targets().get_target_for_level`. -/
def get_target_for_level (stack : List JumpTarget) (isBreak : Bool)
    (level : Nat) : ResolvedJumpTarget :=
  resolveJumpTarget isBreak stack level []

/-- Modelled from the spec: auxiliary walk for the nearest enclosing
finally, accumulating the iterators live between the origin and that
finally frame. -/
def closestFinallyAux : List JumpTarget → List Nat → Option (Nat × List Nat)
  | [], _ => none
  | .tryFinallyFrame fl _ :: _, acc => some (fl, acc)
  | .loopFrame _ _ its :: rest, acc => closestFinallyAux rest (acc ++ its)
  | .switchFrame _ :: rest, acc => closestFinallyAux rest acc

/-- Modelled from the spec: `jump_targets().get_closest_enclosing_finally_label()`. -/
def get_closest_enclosing_finally_label (stack : List JumpTarget) :
    Option (Nat × List Nat) :=
  closestFinallyAux stack []

/-- Modelled from the spec: `jump_targets().iterators()`, every iterator
live on the stack, innermost first. -/
def jtIterators : List JumpTarget → List Nat
  | [] => []
  | .loopFrame _ _ its :: rest => its ++ jtIterators rest
  | .tryFinallyFrame _ its :: rest => its ++ jtIterators rest
  | .switchFrame _ :: rest => jtIterators rest

/-- Modelled from the spec: the function-scoped `jt::Gen`, owning the
jump-target stack and the exit-id allocator (each distinct target label
gets one dense id on first request; a distinguished return id is drawn
from the same counter when the first return is seen). -/
structure JtGen where
  stack : List JumpTarget
  labelIds : List (Nat × Nat)
  returnId : Option Nat
  nextId : Nat
  deriving DecidableEq

/-- Association lookup used by the exit-id allocator model. -/
def lookupLabelId : List (Nat × Nat) → Nat → Option Nat
  | [], _ => none
  | (l, id) :: rest, l' => if l = l' then some id else lookupLabelId rest l'

/-- Modelled from the spec: `jt_gen.get_id_for_label` - the id for a target
label, allocated from the dense counter on first request and cached. -/
def get_id_for_label (g : JtGen) (l : Nat) : Nat × JtGen :=
  match lookupLabelId g.labelIds l with
  | some id => (id, g)
  | none =>
      (g.nextId,
        { g with labelIds := g.labelIds ++ [(l, g.nextId)], nextId := g.nextId + 1 })

/-- Modelled from the spec: `jt_gen.get_id_for_return` - the distinguished
return id, allocated from the same counter on first request. -/
def get_id_for_return (g : JtGen) : Nat × JtGen :=
  match g.returnId with
  | some id => (id, g)
  | none =>
      (g.nextId, { g with returnId := some g.nextId, nextId := g.nextId + 1 })

/-- The scanner's map, `BTreeMap<jt::Nat, &Instruct>`, modelled as an
association list kept sorted by key in strictly ascending order. -/
abbrev LabelMap := List (Nat × Instruct)

/-- Model of `BTreeMap::insert`: keeps keys sorted in ascending order; when
the key is already present its value is replaced. -/
def btreeInsert (k : Nat) (v : Instruct) : LabelMap → LabelMap
  | [] => [(k, v)]
  | (k', v') :: rest =>
      if k < k' then (k, v) :: (k', v') :: rest
      else if k = k' then (k, v) :: rest
      else (k', v') :: btreeInsert k v rest

/-- Model of `BTreeMap::get`. -/
def btreeLookup (k : Nat) : LabelMap → Option Instruct
  | [] => none
  | (k', v') :: rest => if k' = k then some v' else btreeLookup k rest

/-- The scanner's inner `get_label_id` helper: resolve the break/continue
against the jump-target stack and obtain the id of the target label.  The
source marks the `NotFound` arm `unreachable!()` - a panic that aborts the
compilation - which the embedding renders as `none`. -/
def get_label_id (g : JtGen) (isBreak : Bool) (level : Nat) :
    Option (Nat × JtGen) :=
  match get_target_for_level g.stack isBreak level with
  | .resolvedRegular t _ => some (get_id_for_label g t)
  | .resolvedTryFinally t _ _ _ => some (get_id_for_label g t)
  | .notFound => none

/-- One step of the fold inside `JumpInstructions::collect`: Break and
Continue insert at the id of their resolved target label, the return
family inserts at the distinguished return id, everything else is
ignored.  `none` models the propagated `unreachable!()` panic. -/
def collectStep (acc : Option (LabelMap × JtGen)) (i : Instruct) :
    Option (LabelMap × JtGen) :=
  match acc with
  | none => none
  | some (m, g) =>
      match i with
      | .break_ level =>
          match get_label_id g true level with
          | none => none
          | some (id, g') => some (btreeInsert id i m, g')
      | .continue_ level =>
          match get_label_id g false level with
          | none => none
          | some (id, g') => some (btreeInsert id i m, g')
      | .retC | .retCSuspended | .retM _ =>
          match get_id_for_return g with
          | (id, g') => some (btreeInsert id i m, g')
      | _ => some (m, g)

/-- The exit scanner `JumpInstructions::collect`: fold the try body in
order, building the exit map. -/
def collect (body : List Instruct) (g : JtGen) : Option (LabelMap × JtGen) :=
  body.foldl collectStep (some ([], g))

/-- `cleanup_try_body`: delete `Ret*`, `Break` and `Continue` instructions
from the try body (the `retain` call of the source). -/
def cleanup_try_body (is : List Instruct) : List Instruct :=
  is.filter fun i =>
    !(match i with
      | .continue_ _ | .break_ _ | .retC | .retCSuspended | .retM _ => true
      | _ => false)

/-- The instruction variants the scanner collects and the cleaner deletes:
the return family plus the Break/Continue pseudo-instructions. -/
def isExitInstr : Instruct → Bool
  | .retC | .retCSuspended | .retM _ | .break_ _ | .continue_ _ => true
  | _ => false

/-- `emit_jump_to_label`: a plain `Jmp` when no iterator needs releasing,
otherwise `IterBreak` consuming the iterators on the way. -/
def emit_jump_to_label (l : Nat) (iters : List Nat) : List Instruct :=
  if iters.isEmpty then [.jmp l] else [.iterBreak l iters]

/-- `emit_save_label_id`: store an exit id into the special `label_local`. -/
def emit_save_label_id (labelLocal : Nat) (id : Nat) : List Instruct :=
  [.int (id : Int), .setL labelLocal, .popC]

/-- The per-function emitter state consumed by the lowering functions: the
two special locals of the local generator and the statement state
(`num_out`, `verify_out`).  `verifyReturnInstrs` is modelled from the
spec: it stands for the return-type verification sequence computed by the
external reified-generics helper, which is not among the reviewed
sources. -/
structure EmitEnv where
  labelLocal : Nat
  retvalLocal : Nat
  numOut : Nat
  verifyOut : List Instruct
  verifyReturnInstrs : List Instruct
  deriving DecidableEq

/-- `emit_return`: when no finally encloses, load the pending return value
if inside the epilogue, verify the return type and the outputs, free every
live iterator and return; when a finally encloses, save the return exit id
and the return value (unless already inside the epilogue), jump into the
finally and append the sentinel `RetC`. -/
def emit_return (env : EmitEnv) (inFinallyEpilogue : Bool) (g : JtGen) :
    List Instruct × JtGen :=
  match get_closest_enclosing_finally_label g.stack with
  | none =>
      let releaseIters := (jtIterators g.stack).map Instruct.iterFree
      let load := if inFinallyEpilogue then [Instruct.cGetL env.retvalLocal] else []
      (load ++ env.verifyReturnInstrs ++ env.verifyOut ++ releaseIters ++
        [if env.numOut != 0 then Instruct.retM (env.numOut + 1) else Instruct.retC], g)
  | some (targetLabel, itersToRelease) =>
      if inFinallyEpilogue then
        (emit_jump_to_label targetLabel itersToRelease ++ [Instruct.retC], g)
      else
        let r := get_id_for_return g
        (emit_save_label_id env.labelLocal r.1 ++
          [Instruct.setL env.retvalLocal, Instruct.popC] ++
          emit_jump_to_label targetLabel itersToRelease ++ [Instruct.retC], r.2)

/-- Modelled from the spec: the external fatal emitter invoked for an
unresolvable break/continue (`emit_fatal::emit_fatal_for_break_continue`). -/
def emit_fatal_for_break_continue (pos : Nat) (level : Nat) : List Instruct :=
  [Instruct.fatal pos level]

/-- `emit_break_or_continue`: resolve the level against the jump-target
stack and emit the fatal, regular-jump or through-finally sequence. -/
def emit_break_or_continue (env : EmitEnv) (isBreak inFinallyEpilogue : Bool)
    (pos : Nat) (level : Nat) (g : JtGen) : List Instruct × JtGen :=
  match get_target_for_level g.stack isBreak level with
  | .notFound => (emit_fatal_for_break_continue pos level, g)
  | .resolvedRegular targetLabel itersToRelease =>
      let preamble :=
        if inFinallyEpilogue && level == 1 then [Instruct.unsetL env.labelLocal]
        else []
      (preamble ++ [Instruct.srcLoc pos] ++
        emit_jump_to_label targetLabel itersToRelease, g)
  | .resolvedTryFinally targetLabel finallyLabel itersToRelease adjustedLevel =>
      if inFinallyEpilogue then
        (emit_jump_to_label finallyLabel itersToRelease ++ [Instruct.srcLoc pos] ++
          [if isBreak then Instruct.break_ adjustedLevel
           else Instruct.continue_ adjustedLevel], g)
      else
        let r := get_id_for_label g targetLabel
        (emit_save_label_id env.labelLocal r.1 ++
          emit_jump_to_label finallyLabel itersToRelease ++
          [Instruct.srcLoc pos] ++
          [if isBreak then Instruct.break_ adjustedLevel
           else Instruct.continue_ adjustedLevel], r.2)

/-- The mutable state threaded through the epilogue builder: the label
generator counter and the jump-target/exit-id generator. -/
structure EmitState where
  nextLabel : Nat
  jtg : JtGen
  deriving DecidableEq

/-- The inner `emit_instr` helper of `emit_finally_epilogue`: re-lower a
captured exit with `in_finally_epilogue = true`; any other instruction hits
the panic branch, rendered as `none`. -/
def emit_instr (env : EmitEnv) (pos : Nat) (st : EmitState) (i : Instruct) :
    Option (List Instruct × EmitState) :=
  match i with
  | .retC | .retCSuspended | .retM _ =>
      let r := emit_return env true st.jtg
      some (r.1, { st with jtg := r.2 })
  | .break_ level =>
      let r := emit_break_or_continue env true true pos level st.jtg
      some (r.1, { st with jtg := r.2 })
  | .continue_ level =>
      let r := emit_break_or_continue env false true pos level st.jtg
      some (r.1, { st with jtg := r.2 })
  | _ => none

/-- The inner `loop` of the switch builder: decrement `limit` and push
`finally_end` fillers until the current entry's id is reached.  Returns the
fillers pushed so far and the decremented limit; `none` models the
underflow panic that the sortedness of the map makes unreachable. -/
def innerFill (finallyEnd : Nat) (id : Nat) :
    Nat → List Nat → Option (List Nat × Nat)
  | 0, _ => none
  | limit + 1, labels =>
      if id == limit then some (labels, limit)
      else innerFill finallyEnd id limit (labels ++ [finallyEnd])

/-- The `for (id, instr) in jump_instrs.0.into_iter().rev()` loop of
`emit_finally_epilogue`: walk the map in descending id order, pushing
filler labels for holes and a fresh handler label plus handler body for
each present id. -/
def epilogueLoop (env : EmitEnv) (pos : Nat) (finallyEnd : Nat) :
    List (Nat × Instruct) → Nat → List Nat → List (List Instruct) →
    EmitState → Option (List Nat × List (List Instruct) × Nat × EmitState)
  | [], limit, labels, bodies, st => some (labels, bodies, limit, st)
  | (id, i) :: rest, limit, labels, bodies, st =>
      match innerFill finallyEnd id limit labels with
      | none => none
      | some (labels', limit') =>
          let l := st.nextLabel
          let st' : EmitState := { st with nextLabel := st.nextLabel + 1 }
          match emit_instr env pos st' i with
          | none => none
          | some (body, st'') =>
              epilogueLoop env pos finallyEnd rest limit' (labels' ++ [l])
                (bodies ++ [Instruct.label l :: body]) st''

/-- `emit_finally_epilogue`: nothing for an empty exit map, a guarded
single handler for a singleton map, and a guard plus dense switch plus
handler fragments for a larger map. -/
def emit_finally_epilogue (env : EmitEnv) (pos : Nat) (st : EmitState)
    (jumpInstrs : LabelMap) (finallyEnd : Nat) :
    Option (List Instruct × EmitState) :=
  match jumpInstrs with
  | [] => some ([], st)
  | [(_, i)] =>
      match emit_instr env pos st i with
      | none => none
      | some (body, st') =>
          some ([Instruct.srcLoc pos, Instruct.isSetL env.labelLocal,
                 Instruct.jmpZ finallyEnd] ++ body, st')
  | _ =>
      match jumpInstrs.getLast? with
      | none => none
      | some (maxId, _) =>
          match epilogueLoop env pos finallyEnd jumpInstrs.reverse (maxId + 1)
              [] [] st with
          | none => none
          | some (labels, bodies, limit, st') =>
              some ([Instruct.srcLoc pos, Instruct.isSetL env.labelLocal,
                     Instruct.jmpZ finallyEnd, Instruct.cGetL env.labelLocal,
                     Instruct.switch
                       ((labels ++ List.replicate limit finallyEnd).reverse)] ++
                    (bodies.reverse).flatten, st')

/-- The lowering of one captured exit inside the epilogue, as a total
function of the (unchanged) generator state; `emit_instr` computes exactly
this on exit instructions. -/
def lowerExit (env : EmitEnv) (pos : Nat) (g : JtGen) : Instruct → List Instruct
  | .retC | .retCSuspended | .retM _ => (emit_return env true g).1
  | .break_ level => (emit_break_or_continue env true true pos level g).1
  | .continue_ level => (emit_break_or_continue env false true pos level g).1
  | _ => []

/-- Position of a key in the scanner's map (first index whose key matches). -/
def keyIdx : List (Nat × Instruct) → Nat → Option Nat
  | [], _ => none
  | (k, _) :: rest, i => if k = i then some 0 else (keyIdx rest i).map (· + 1)

/-- The id under which `collectStep` would record an instruction, together
with the updated generator: the resolved target label's id for
Break/Continue, the distinguished return id for the return family, and
`none` for anything else (ignored) or for an unresolvable level (panic). -/
def exitIdOf (g : JtGen) : Instruct → Option (Nat × JtGen)
  | .break_ level => get_label_id g true level
  | .continue_ level => get_label_id g false level
  | .retC | .retCSuspended | .retM _ => some (get_id_for_return g)
  | _ => none

/-- The labels pushed by the switch-building loop of
`emit_finally_epilogue` while walking the map in descending id order:
filler `finally_end` labels for the holes below the previous limit, then
the fresh handler label, for each entry. -/
def segLabels (fe : Nat) : List (Nat × Instruct) → Nat → Nat → List Nat
  | [], _, _ => []
  | (id, _) :: rest, limit, nl =>
      List.replicate (limit - 1 - id) fe ++ nl :: segLabels fe rest id (nl + 1)

/-- The handler bodies pushed by the switch-building loop, in processing
(descending-id) order: each is its handler label followed by the re-lowered
exit. -/
def segBodies (env : EmitEnv) (pos : Nat) (g : JtGen) :
    List (Nat × Instruct) → Nat → List (List Instruct)
  | [], _ => []
  | (_, i) :: rest, nl =>
      (Instruct.label nl :: lowerExit env pos g i) :: segBodies env pos g rest (nl + 1)

/-- The value of `limit` left by the switch-building loop: the id of the
last entry processed (the smallest id), or the initial limit for an empty
map. -/
def lastKey : List (Nat × Instruct) → Nat → Nat
  | [], limit => limit
  | (id, _) :: rest, _ => lastKey rest id

/-- The handler fragments of the finally epilogue laid out in ascending
exit-id order: the entry at ascending position `j` out of `n` carries the
handler label `nl + (n - 1 - j)` (handler labels are generated while the
loop walks the map in descending order, so the largest id gets the first
fresh label `nl`). -/
def ascHandlers (env : EmitEnv) (pos : Nat) (g : JtGen) :
    List (Nat × Instruct) → Nat → List (List Instruct)
  | [], _ => []
  | (_, i) :: rest, nl =>
      (Instruct.label (nl + rest.length) :: lowerExit env pos g i) ::
        ascHandlers env pos g rest nl

theorem btreeLookup_insert (k : Nat) (v : Instruct) (m : LabelMap) :
    btreeLookup k (btreeInsert k v m) = some v := by
  induction m with
  | nil => simp [btreeInsert, btreeLookup]
  | cons p rest ih =>
      obtain ⟨a, b⟩ := p
      by_cases h1 : k < a
      · simp [btreeInsert, btreeLookup, h1]
      · by_cases h2 : k = a
        · simp [btreeInsert, btreeLookup, h1, h2]
        · have h2' : ¬a = k := fun hh => h2 hh.symm
          simp [btreeInsert, btreeLookup, h1, h2, h2', ih]

theorem mem_btreeInsert {p : Nat × Instruct} {k : Nat} {v : Instruct}
    {m : LabelMap} (h : p ∈ btreeInsert k v m) : p = (k, v) ∨ p ∈ m := by
  induction m with
  | nil => simpa [btreeInsert] using h
  | cons q rest ih =>
      obtain ⟨a, b⟩ := q
      by_cases h1 : k < a
      · rw [btreeInsert, if_pos h1] at h
        simp only [List.mem_cons] at h ⊢
        tauto
      · by_cases h2 : k = a
        · rw [btreeInsert, if_neg h1, if_pos h2] at h
          simp only [List.mem_cons] at h ⊢
          tauto
        · rw [btreeInsert, if_neg h1, if_neg h2] at h
          simp only [List.mem_cons] at h ⊢
          rcases h with h | h
          · tauto
          · rcases ih h with h' | h' <;> tauto

theorem collectStep_none (i : Instruct) : collectStep none i = none := rfl

theorem collect_none_propagates (l : List Instruct) :
    List.foldl collectStep none l = none := by
  induction l with
  | nil => rfl
  | cons i rest ih => simpa [collectStep_none] using ih

theorem collectStep_some_exit {g g' : JtGen} {i : Instruct} {id : Nat}
    (m : LabelMap) (hid : exitIdOf g i = some (id, g')) :
    collectStep (some (m, g)) i = some (btreeInsert id i m, g') := by
  cases i <;> simp_all [exitIdOf, collectStep]

/-- C9: `cleanup_try_body` removes exactly the return-family and
Break/Continue instructions - the retained instructions form a sublist of
the input (relative order preserved), every non-exit instruction of the
input is kept, and every exit instruction is dropped. -/
theorem claim_C9_cleanup (is : List Instruct) (i : Instruct) :
    (cleanup_try_body is).Sublist is ∧
    (i ∈ cleanup_try_body is → isExitInstr i = false) ∧
    (i ∈ is → isExitInstr i = false → i ∈ cleanup_try_body is) := by
  have hpred : cleanup_try_body is = is.filter (fun j => !isExitInstr j) := by
    unfold cleanup_try_body
    congr 1
    funext j
    cases j <;> rfl
  refine ⟨?_, ?_, ?_⟩
  · rw [hpred]; exact List.filter_sublist _
  · intro hi
    rw [hpred] at hi
    have := (List.mem_filter.1 hi).2
    simpa using this
  · intro hi hex
    rw [hpred]
    exact List.mem_filter.2 ⟨hi, by simp [hex]⟩

theorem claim_C9_cleanup_witness :
    Instruct.popC ∈ [Instruct.retC, Instruct.popC] ∧
    isExitInstr Instruct.popC = false ∧
    Instruct.popC ∈ cleanup_try_body [Instruct.retC, Instruct.popC] :=
  ⟨by decide, by decide,
    (claim_C9_cleanup [Instruct.retC, Instruct.popC] Instruct.popC).2.2
      (by decide) (by decide)⟩

/-- C1 counterexample: both `RetC` and `RetM 2` resolve to the
distinguished return id (which is `0` for a fresh generator), and the map
produced by the scanner stores the LAST of the two, `RetM 2` - not the
first-seen `RetC` the claim requires - because `BTreeMap::insert` replaces
the value of an existing key. -/
theorem claim_C1_counterexample :
    (collect [Instruct.retC, Instruct.retM 2] (JtGen.mk [] [] none 0)).map
        (fun p => btreeLookup 0 p.1) = some (some (Instruct.retM 2)) ∧
    Instruct.retM 2 ≠ Instruct.retC := by decide

/-- C1 amended: the exit scanner associates each exit id with the LAST
instruction of the try body resolving to that id - appending a further
exit instruction with an id already present replaces the stored entry, so
the lookup afterwards yields the new instruction. -/
theorem claim_C1_amended (body : List Instruct) (g₀ : JtGen) (m : LabelMap)
    (g g' : JtGen) (i : Instruct) (id : Nat)
    (h : collect body g₀ = some (m, g)) (hid : exitIdOf g i = some (id, g')) :
    collect (body ++ [i]) g₀ = some (btreeInsert id i m, g') ∧
    btreeLookup id (btreeInsert id i m) = some i := by
  constructor
  · rw [collect, List.foldl_append]
    rw [show List.foldl collectStep (some ([], g₀)) body = some (m, g) from h]
    simpa using collectStep_some_exit m hid
  · exact btreeLookup_insert id i m

theorem claim_C1_amended_witness :
    collect ([Instruct.retC] ++ [Instruct.retM 2]) (JtGen.mk [] [] none 0) =
      some (btreeInsert 0 (Instruct.retM 2) [(0, Instruct.retC)],
        JtGen.mk [] [] (some 0) 1) ∧
    btreeLookup 0 (btreeInsert 0 (Instruct.retM 2) [(0, Instruct.retC)]) =
      some (Instruct.retM 2) :=
  claim_C1_amended [Instruct.retC] (JtGen.mk [] [] none 0)
    [(0, Instruct.retC)] (JtGen.mk [] [] (some 0) 1)
    (JtGen.mk [] [] (some 0) 1) (Instruct.retM 2) 0 (by decide) (by decide)

/-- C3 counterexample: a Break pseudo whose resolution against the
jump-target stack is `NotFound` (here: `break 1` with an empty stack) makes
the scanner hit the `unreachable!()` arm - the scan aborts (modelled as
`none`); it does not continue and produce a map, as the claim states. -/
theorem claim_C3_counterexample :
    collect [Instruct.break_ 1] (JtGen.mk [] [] none 0) = none := by decide

/-- C3 amended: when a Break or Continue in the scanned try body resolves
to `NotFound`, the scanner panics (the arm is `unreachable!()`): the whole
scan aborts instead of skipping the instruction and continuing. -/
theorem claim_C3_amended (g : JtGen) (isB : Bool) (lvl : Nat)
    (rest : List Instruct)
    (h : get_target_for_level g.stack isB lvl = .notFound) :
    collect ((if isB then Instruct.break_ lvl else Instruct.continue_ lvl)
      :: rest) g = none := by
  rw [collect, List.foldl_cons]
  have hstep : collectStep (some ([], g))
      (if isB then Instruct.break_ lvl else Instruct.continue_ lvl) = none := by
    cases isB <;> simp [collectStep, get_label_id, h]
  rw [hstep]
  exact collect_none_propagates rest

theorem claim_C3_amended_witness :
    get_target_for_level (JtGen.mk [] [] none 0).stack false 2 = .notFound ∧
    collect ((if false then Instruct.break_ 2 else Instruct.continue_ 2)
      :: [Instruct.retC]) (JtGen.mk [] [] none 0) = none :=
  ⟨by decide,
    claim_C3_amended (JtGen.mk [] [] none 0) false 2 [Instruct.retC] (by decide)⟩

/-- C2 counterexample: a return re-lowered inside a finally epilogue while
an outer finally (label 5) still encloses emits only the jump to that
finally plus the sentinel `RetC` - no `SetL label_local` (local 0) appears,
so the return exit id is NOT re-saved as the claim states (the
`in_finally_epilogue` preamble of `emit_return` is empty). -/
theorem claim_C2_counterexample :
    (emit_return (EmitEnv.mk 0 1 0 [] []) true
        (JtGen.mk [.tryFinallyFrame 5 []] [] none 0)).1 =
      [Instruct.jmp 5, Instruct.retC] ∧
    Instruct.setL 0 ∉
      (emit_return (EmitEnv.mk 0 1 0 [] []) true
        (JtGen.mk [.tryFinallyFrame 5 []] [] none 0)).1 := by decide

/-- C2 amended: for every call to `emit_return` with
`in_finally_epilogue = true` while another finally still encloses, the
emitted sequence is exactly the jump into that outer finally (`Jmp`, or
`IterBreak` when iterators must be released) followed by the sentinel
`RetC`; the exit id is not saved again (it still sits in `label_local`
from the original exit site) and the generator state is unchanged. -/
theorem claim_C2_amended (env : EmitEnv) (g : JtGen) (l : Nat)
    (iters : List Nat)
    (h : get_closest_enclosing_finally_label g.stack = some (l, iters)) :
    emit_return env true g = (emit_jump_to_label l iters ++ [Instruct.retC], g) := by
  simp [emit_return, h]

theorem claim_C2_amended_witness :
    get_closest_enclosing_finally_label
        (JtGen.mk [.loopFrame 1 2 [4], .tryFinallyFrame 5 []] [] none 0).stack =
      some (5, [4]) ∧
    emit_return (EmitEnv.mk 0 1 0 [] []) true
        (JtGen.mk [.loopFrame 1 2 [4], .tryFinallyFrame 5 []] [] none 0) =
      (emit_jump_to_label 5 [4] ++ [Instruct.retC],
        JtGen.mk [.loopFrame 1 2 [4], .tryFinallyFrame 5 []] [] none 0) :=
  ⟨by decide,
    claim_C2_amended (EmitEnv.mk 0 1 0 [] [])
      (JtGen.mk [.loopFrame 1 2 [4], .tryFinallyFrame 5 []] [] none 0)
      5 [4] (by decide)⟩

/-- C5: a return emitted outside the epilogue while a finally encloses is
exactly `Int(ReturnId); SetL(label_local); PopC; SetL(retval_local); PopC`
followed by `Jmp(finally_label)` when no iterator must be released
(`IterBreak(finally_label, iters)` otherwise) and a trailing sentinel
`RetC`; the generator records the allocation of the return id. -/
theorem claim_C5_return_in_try (env : EmitEnv) (g : JtGen) (l : Nat)
    (iters : List Nat)
    (h : get_closest_enclosing_finally_label g.stack = some (l, iters)) :
    emit_return env false g =
      ([Instruct.int ((get_id_for_return g).1 : Int),
        Instruct.setL env.labelLocal, Instruct.popC,
        Instruct.setL env.retvalLocal, Instruct.popC] ++
       (if iters.isEmpty then [Instruct.jmp l] else [Instruct.iterBreak l iters]) ++
       [Instruct.retC], (get_id_for_return g).2) := by
  simp [emit_return, h, emit_save_label_id, emit_jump_to_label]

theorem claim_C5_return_in_try_witness :
    get_closest_enclosing_finally_label
        (JtGen.mk [.tryFinallyFrame 5 []] [] none 0).stack = some (5, []) ∧
    emit_return (EmitEnv.mk 0 1 0 [] []) false
        (JtGen.mk [.tryFinallyFrame 5 []] [] none 0) =
      ([Instruct.int ((get_id_for_return (JtGen.mk [.tryFinallyFrame 5 []] [] none 0)).1 : Int),
        Instruct.setL (EmitEnv.mk 0 1 0 [] []).labelLocal, Instruct.popC,
        Instruct.setL (EmitEnv.mk 0 1 0 [] []).retvalLocal, Instruct.popC] ++
       (if ([] : List Nat).isEmpty then [Instruct.jmp 5]
        else [Instruct.iterBreak 5 []]) ++
       [Instruct.retC],
       (get_id_for_return (JtGen.mk [.tryFinallyFrame 5 []] [] none 0)).2) :=
  ⟨by decide,
    claim_C5_return_in_try (EmitEnv.mk 0 1 0 [] [])
      (JtGen.mk [.tryFinallyFrame 5 []] [] none 0) 5 [] (by decide)⟩

/-- C7: a return with no enclosing finally frees every iterator live on
the jump-target stack, in stack order, via `IterFree`, and ends with
`RetM(num_out + 1)` when `num_out > 0` and with `RetC` otherwise (the
leading part is the retval load for the epilogue case, the return-type
verification and the output verification). -/
theorem claim_C7_return_no_finally (env : EmitEnv) (inEpi : Bool) (g : JtGen)
    (h : get_closest_enclosing_finally_label g.stack = none) :
    emit_return env inEpi g =
      ((if inEpi then [Instruct.cGetL env.retvalLocal] else []) ++
        env.verifyReturnInstrs ++ env.verifyOut ++
        (jtIterators g.stack).map Instruct.iterFree ++
        [if env.numOut != 0 then Instruct.retM (env.numOut + 1)
         else Instruct.retC], g) := by
  simp [emit_return, h]

theorem claim_C7_return_no_finally_witness :
    get_closest_enclosing_finally_label
        (JtGen.mk [.loopFrame 1 2 [4], .loopFrame 1 2 [5]] [] none 0).stack = none ∧
    emit_return (EmitEnv.mk 0 1 2 [] []) false
        (JtGen.mk [.loopFrame 1 2 [4], .loopFrame 1 2 [5]] [] none 0) =
      ((if false then [Instruct.cGetL (EmitEnv.mk 0 1 2 [] []).retvalLocal] else []) ++
        (EmitEnv.mk 0 1 2 [] []).verifyReturnInstrs ++
        (EmitEnv.mk 0 1 2 [] []).verifyOut ++
        (jtIterators (JtGen.mk [.loopFrame 1 2 [4], .loopFrame 1 2 [5]] [] none 0).stack).map
          Instruct.iterFree ++
        [if (EmitEnv.mk 0 1 2 [] []).numOut != 0 then
          Instruct.retM ((EmitEnv.mk 0 1 2 [] []).numOut + 1)
         else Instruct.retC],
       JtGen.mk [.loopFrame 1 2 [4], .loopFrame 1 2 [5]] [] none 0) :=
  ⟨by decide,
    claim_C7_return_no_finally (EmitEnv.mk 0 1 2 [] []) false
      (JtGen.mk [.loopFrame 1 2 [4], .loopFrame 1 2 [5]] [] none 0) (by decide)⟩

/-- C6: a break/continue resolving to `ResolvedTryFinally` emits the
save-the-target-id preamble (`Int(id); SetL(label_local); PopC`) exactly
when not in the finally epilogue (empty otherwise), then the jump into the
finally (`Jmp`, or `IterBreak` with the iterators to release), then the
position marker, then the trailing `Break`/`Continue` pseudo carrying the
adjusted level. -/
theorem claim_C6_break_through_finally (env : EmitEnv) (isB inEpi : Bool)
    (pos : Nat) (lvl : Nat) (g : JtGen) (t fl : Nat) (iters : List Nat)
    (adj : Nat)
    (h : get_target_for_level g.stack isB lvl = .resolvedTryFinally t fl iters adj) :
    emit_break_or_continue env isB inEpi pos lvl g =
      ((if inEpi then [] else
          [Instruct.int ((get_id_for_label g t).1 : Int),
           Instruct.setL env.labelLocal, Instruct.popC]) ++
        (if iters.isEmpty then [Instruct.jmp fl] else [Instruct.iterBreak fl iters]) ++
        [Instruct.srcLoc pos] ++
        [if isB then Instruct.break_ adj else Instruct.continue_ adj],
       if inEpi then g else (get_id_for_label g t).2) := by
  cases inEpi <;>
    simp [emit_break_or_continue, h, emit_save_label_id, emit_jump_to_label]

theorem claim_C6_break_through_finally_witness :
    get_target_for_level
        (JtGen.mk [.tryFinallyFrame 9 [], .loopFrame 1 2 []] [] none 0).stack
        true 1 = .resolvedTryFinally 1 9 [] 1 ∧
    emit_break_or_continue (EmitEnv.mk 0 1 0 [] []) true false 7 1
        (JtGen.mk [.tryFinallyFrame 9 [], .loopFrame 1 2 []] [] none 0) =
      ((if false then [] else
          [Instruct.int ((get_id_for_label
              (JtGen.mk [.tryFinallyFrame 9 [], .loopFrame 1 2 []] [] none 0) 1).1 : Int),
           Instruct.setL (EmitEnv.mk 0 1 0 [] []).labelLocal, Instruct.popC]) ++
        (if ([] : List Nat).isEmpty then [Instruct.jmp 9]
         else [Instruct.iterBreak 9 []]) ++
        [Instruct.srcLoc 7] ++
        [if true then Instruct.break_ 1 else Instruct.continue_ 1],
       if false then JtGen.mk [.tryFinallyFrame 9 [], .loopFrame 1 2 []] [] none 0
       else (get_id_for_label
         (JtGen.mk [.tryFinallyFrame 9 [], .loopFrame 1 2 []] [] none 0) 1).2) :=
  ⟨by decide,
    claim_C6_break_through_finally (EmitEnv.mk 0 1 0 [] []) true false 7 1
      (JtGen.mk [.tryFinallyFrame 9 [], .loopFrame 1 2 []] [] none 0)
      1 9 [] 1 (by decide)⟩

/-- C8: a break/continue resolving to `ResolvedRegular` emits the
`UnsetL(label_local)` preamble exactly when in the finally epilogue at
level 1 (empty otherwise), then the position marker, then
`Jmp(target_label)` - or `IterBreak(target_label, iters)` when the
iterator list is non-empty; the generator state is unchanged. -/
theorem claim_C8_break_regular (env : EmitEnv) (isB inEpi : Bool) (pos : Nat)
    (lvl : Nat) (g : JtGen) (t : Nat) (iters : List Nat)
    (h : get_target_for_level g.stack isB lvl = .resolvedRegular t iters) :
    emit_break_or_continue env isB inEpi pos lvl g =
      ((if inEpi && lvl == 1 then [Instruct.unsetL env.labelLocal] else []) ++
        [Instruct.srcLoc pos] ++
        (if iters.isEmpty then [Instruct.jmp t] else [Instruct.iterBreak t iters]),
       g) := by
  simp [emit_break_or_continue, h, emit_jump_to_label]

theorem claim_C8_break_regular_witness :
    get_target_for_level (JtGen.mk [.loopFrame 1 2 [7]] [] none 0).stack
        true 1 = .resolvedRegular 1 [7] ∧
    emit_break_or_continue (EmitEnv.mk 0 1 0 [] []) true true 3 1
        (JtGen.mk [.loopFrame 1 2 [7]] [] none 0) =
      ((if true && (1 : Nat) == 1 then
          [Instruct.unsetL (EmitEnv.mk 0 1 0 [] []).labelLocal] else []) ++
        [Instruct.srcLoc 3] ++
        (if ([7] : List Nat).isEmpty then [Instruct.jmp 1]
         else [Instruct.iterBreak 1 [7]]),
       JtGen.mk [.loopFrame 1 2 [7]] [] none 0) :=
  ⟨by decide,
    claim_C8_break_regular (EmitEnv.mk 0 1 0 [] []) true true 3 1
      (JtGen.mk [.loopFrame 1 2 [7]] [] none 0) 1 [7] (by decide)⟩

theorem collectStep_some_cases {m : LabelMap} {g : JtGen} {m' : LabelMap}
    {g' : JtGen} {i : Instruct}
    (hstep : collectStep (some (m, g)) i = some (m', g')) :
    (m' = m ∧ isExitInstr i = false) ∨
    (∃ id, m' = btreeInsert id i m ∧ isExitInstr i = true) := by
  cases i with
  | break_ lvl =>
      cases hlab : get_label_id g true lvl with
      | none => simp [collectStep, hlab] at hstep
      | some r =>
          obtain ⟨id, g2⟩ := r
          simp only [collectStep, hlab] at hstep
          rw [Option.some_inj] at hstep
          exact Or.inr ⟨id, (congrArg Prod.fst hstep).symm, rfl⟩
  | continue_ lvl =>
      cases hlab : get_label_id g false lvl with
      | none => simp [collectStep, hlab] at hstep
      | some r =>
          obtain ⟨id, g2⟩ := r
          simp only [collectStep, hlab] at hstep
          rw [Option.some_inj] at hstep
          exact Or.inr ⟨id, (congrArg Prod.fst hstep).symm, rfl⟩
  | retC =>
      rcases hret : get_id_for_return g with ⟨id, g2⟩
      simp only [collectStep, hret] at hstep
      rw [Option.some_inj] at hstep
      exact Or.inr ⟨id, (congrArg Prod.fst hstep).symm, rfl⟩
  | retCSuspended =>
      rcases hret : get_id_for_return g with ⟨id, g2⟩
      simp only [collectStep, hret] at hstep
      rw [Option.some_inj] at hstep
      exact Or.inr ⟨id, (congrArg Prod.fst hstep).symm, rfl⟩
  | retM n =>
      rcases hret : get_id_for_return g with ⟨id, g2⟩
      simp only [collectStep, hret] at hstep
      rw [Option.some_inj] at hstep
      exact Or.inr ⟨id, (congrArg Prod.fst hstep).symm, rfl⟩
  | _ =>
      simp only [collectStep] at hstep
      rw [Option.some_inj] at hstep
      exact Or.inl ⟨(congrArg Prod.fst hstep).symm, rfl⟩

theorem collect_values_exit (body : List Instruct) :
    ∀ (m₀ : LabelMap) (g₀ : JtGen) (m : LabelMap) (g : JtGen),
    (∀ p ∈ m₀, isExitInstr p.2 = true) →
    body.foldl collectStep (some (m₀, g₀)) = some (m, g) →
    ∀ p ∈ m, isExitInstr p.2 = true := by
  induction body with
  | nil =>
      intro m₀ g₀ m g hinv h
      rw [List.foldl_nil, Option.some_inj] at h
      have hm : m = m₀ := (congrArg Prod.fst h).symm
      exact hm ▸ hinv
  | cons i rest ih =>
      intro m₀ g₀ m g hinv h
      rw [List.foldl_cons] at h
      cases hstep : collectStep (some (m₀, g₀)) i with
      | none =>
          rw [hstep, collect_none_propagates] at h
          cases h
      | some q =>
          obtain ⟨m₁, g₁⟩ := q
          rw [hstep] at h
          refine ih m₁ g₁ m g ?_ h
          intro p hp
          rcases collectStep_some_cases hstep with ⟨hm, -⟩ | ⟨id, hm, hex⟩
          · exact hinv p (hm ▸ hp)
          · rcases mem_btreeInsert (hm ▸ hp) with hpe | hpe
            · rw [hpe]
              exact hex
            · exact hinv p hpe

/-- C10: every instruction stored as a value in a map produced by the exit
scanner `JumpInstructions::collect` is a `RetC`, `RetCSuspended`, `RetM`,
`Break` or `Continue`, so the panic branch of the inner `emit_instr` helper
of `emit_finally_epilogue` is unreachable on such a value: `emit_instr`
always succeeds on it. -/
theorem claim_C10_map_values_exit (body : List Instruct) (g₀ : JtGen)
    (m : LabelMap) (g : JtGen) (h : collect body g₀ = some (m, g))
    (p : Nat × Instruct) (hp : p ∈ m)
    (env : EmitEnv) (pos : Nat) (st : EmitState) :
    isExitInstr p.2 = true ∧ (emit_instr env pos st p.2).isSome = true := by
  have hex : isExitInstr p.2 = true :=
    collect_values_exit body [] g₀ m g (by intro q hq; cases hq) h p hp
  refine ⟨hex, ?_⟩
  cases hpi : p.2 <;> rw [hpi] at hex <;> first
    | exact Bool.noConfusion hex
    | rfl

theorem claim_C10_map_values_exit_witness :
    collect [Instruct.popC, Instruct.retC] (JtGen.mk [] [] none 0) =
      some ([(0, Instruct.retC)], JtGen.mk [] [] (some 0) 1) ∧
    (0, Instruct.retC) ∈ [(0, Instruct.retC)] ∧
    isExitInstr (0, Instruct.retC).2 = true ∧
    (emit_instr (EmitEnv.mk 0 1 0 [] []) 0 (EmitState.mk 0 (JtGen.mk [] [] none 0))
        (0, Instruct.retC).2).isSome = true :=
  ⟨by decide, by decide,
    claim_C10_map_values_exit [Instruct.popC, Instruct.retC]
      (JtGen.mk [] [] none 0) [(0, Instruct.retC)]
      (JtGen.mk [] [] (some 0) 1) (by decide) (0, Instruct.retC) (by decide)
      (EmitEnv.mk 0 1 0 [] []) 0 (EmitState.mk 0 (JtGen.mk [] [] none 0))⟩

theorem emit_return_epilogue_state (env : EmitEnv) (g : JtGen) :
    (emit_return env true g).2 = g := by
  rw [emit_return]
  cases h : get_closest_enclosing_finally_label g.stack with
  | none => rfl
  | some p =>
      obtain ⟨l, iters⟩ := p
      rfl

theorem emit_boc_epilogue_state (env : EmitEnv) (isB : Bool) (pos : Nat)
    (lvl : Nat) (g : JtGen) :
    (emit_break_or_continue env isB true pos lvl g).2 = g := by
  rw [emit_break_or_continue]
  cases h : get_target_for_level g.stack isB lvl <;> rfl

theorem emit_instr_exit (env : EmitEnv) (pos : Nat) (st : EmitState)
    (i : Instruct) (h : isExitInstr i = true) :
    emit_instr env pos st i = some (lowerExit env pos st.jtg i, st) := by
  cases i <;> first
    | exact Bool.noConfusion h
    | (simp only [emit_instr, lowerExit, emit_return_epilogue_state,
        emit_boc_epilogue_state])

theorem innerFill_eq (fe : Nat) (id : Nat) :
    ∀ (limit : Nat) (labels : List Nat), id < limit →
    innerFill fe id limit labels =
      some (labels ++ List.replicate (limit - 1 - id) fe, id) := by
  intro limit
  induction limit with
  | zero => intro labels h; omega
  | succ l ih =>
      intro labels h
      by_cases hid : id = l
      · subst hid
        simp [innerFill]
      · have hlt : id < l := by omega
        rw [innerFill, if_neg (by simpa using hid), ih _ hlt]
        have hrep : l + 1 - 1 - id = l - 1 - id + 1 := by omega
        rw [hrep, List.replicate_succ, List.append_assoc]
        rfl

theorem epilogueLoop_eq (env : EmitEnv) (pos : Nat) (fe : Nat)
    (dE : List (Nat × Instruct)) :
    ∀ (limit : Nat) (labels : List Nat) (bodies : List (List Instruct))
      (st : EmitState),
    List.Pairwise (fun a b : Nat × Instruct => b.1 < a.1) dE →
    (∀ p ∈ dE, p.1 < limit) →
    (∀ p ∈ dE, isExitInstr p.2 = true) →
    epilogueLoop env pos fe dE limit labels bodies st =
      some (labels ++ segLabels fe dE limit st.nextLabel,
            bodies ++ segBodies env pos st.jtg dE st.nextLabel,
            lastKey dE limit,
            { st with nextLabel := st.nextLabel + dE.length }) := by
  induction dE with
  | nil =>
      intro limit labels bodies st _ _ _
      simp [epilogueLoop, segLabels, segBodies, lastKey]
  | cons p rest ih =>
      obtain ⟨id, i⟩ := p
      intro limit labels bodies st hpw hall hex
      rw [List.pairwise_cons] at hpw
      have hhead : id < limit := hall _ (List.mem_cons_self _ _)
      have hexi : isExitInstr i = true := hex _ (List.mem_cons_self _ _)
      have hstep : epilogueLoop env pos fe ((id, i) :: rest) limit labels bodies st =
          epilogueLoop env pos fe rest id
            (labels ++ List.replicate (limit - 1 - id) fe ++ [st.nextLabel])
            (bodies ++ [Instruct.label st.nextLabel :: lowerExit env pos st.jtg i])
            { st with nextLabel := st.nextLabel + 1 } := by
        rw [epilogueLoop, innerFill_eq fe id limit labels hhead]
        simp only [emit_instr_exit env pos
          { st with nextLabel := st.nextLabel + 1 } i hexi]
      rw [hstep,
        ih id _ _ _ hpw.2 (fun q hq => hpw.1 q hq)
          (fun q hq => hex q (List.mem_cons_of_mem _ hq))]
      simp only [segLabels, segBodies, lastKey, List.append_assoc,
        List.singleton_append, List.cons_append, List.length_cons,
        List.nil_append]
      refine congrArg some ?_
      refine congrArg₂ _ rfl (congrArg₂ _ rfl (congrArg₂ _ rfl ?_))
      show ({ st with nextLabel := st.nextLabel + 1 + rest.length } : EmitState) =
        { st with nextLabel := st.nextLabel + (rest.length + 1) }
      have : st.nextLabel + 1 + rest.length = st.nextLabel + (rest.length + 1) := by
        omega
      rw [this]

theorem keyIdx_eq_none (l : List (Nat × Instruct)) (i : Nat)
    (h : ∀ p ∈ l, p.1 ≠ i) : keyIdx l i = none := by
  induction l with
  | nil => rfl
  | cons p rest ih =>
      obtain ⟨k, v⟩ := p
      rw [keyIdx, if_neg (h (k, v) (List.mem_cons_self _ _)),
        ih (fun q hq => h q (List.mem_cons_of_mem _ hq))]
      rfl

theorem keyIdx_lt_length {l : List (Nat × Instruct)} {i j : Nat}
    (h : keyIdx l i = some j) : j < l.length := by
  induction l generalizing j with
  | nil => cases h
  | cons p rest ih =>
      obtain ⟨k, v⟩ := p
      rw [keyIdx] at h
      by_cases hk : k = i
      · rw [if_pos hk, Option.some_inj] at h
        simp [← h]
      · rw [if_neg hk] at h
        cases hr : keyIdx rest i with
        | none => rw [hr] at h; cases h
        | some j' =>
            rw [hr, Option.map_some'] at h
            rw [Option.some_inj] at h
            have := ih hr
            simp [← h]
            omega

theorem keyIdx_append (xs ys : List (Nat × Instruct)) (i : Nat) :
    keyIdx (xs ++ ys) i =
      match keyIdx xs i with
      | some j => some j
      | none => (keyIdx ys i).map (· + xs.length) := by
  induction xs with
  | nil =>
      rw [List.nil_append]
      show keyIdx ys i = (keyIdx ys i).map (· + ([] : List (Nat × Instruct)).length)
      cases keyIdx ys i <;> rfl
  | cons p rest ih =>
      obtain ⟨k, v⟩ := p
      rw [List.cons_append, keyIdx, keyIdx]
      by_cases hk : k = i
      · rw [if_pos hk, if_pos hk]
      · rw [if_neg hk, if_neg hk, ih]
        cases hres : keyIdx rest i with
        | some j => rfl
        | none =>
            cases hys : keyIdx ys i with
            | none => rfl
            | some j =>
                show some (j + rest.length + 1) = some (j + ((k, v) :: rest).length)
                rw [Option.some_inj, List.length_cons]
                omega

theorem keyIdx_reverse (l : List (Nat × Instruct)) (i : Nat)
    (hnd : List.Pairwise (fun a b : Nat × Instruct => a.1 ≠ b.1) l) :
    keyIdx l.reverse i = (keyIdx l i).map (fun j => l.length - 1 - j) := by
  induction l with
  | nil => rfl
  | cons p rest ih =>
      obtain ⟨k, v⟩ := p
      rw [List.pairwise_cons] at hnd
      rw [List.reverse_cons, keyIdx_append, ih hnd.2]
      by_cases hk : k = i
      · have hrest : keyIdx rest i = none := by
          refine keyIdx_eq_none rest i (fun q hq => ?_)
          have := hnd.1 q hq
          simp only [← hk]
          exact fun hq1 => this hq1.symm
        rw [hrest]
        simp [keyIdx, hk, List.length_reverse]
      · cases hr : keyIdx rest i with
        | none => simp [keyIdx, hk, hr]
        | some j =>
            have hj : j < rest.length := keyIdx_lt_length hr
            simp only [Option.map_some', keyIdx, if_neg hk, hr]
            rw [Option.some_inj]
            simp only [List.length_cons]
            omega

theorem segLabels_reverse_eq (fe : Nat) (dE : List (Nat × Instruct)) :
    ∀ (limit nl : Nat),
    List.Pairwise (fun a b : Nat × Instruct => b.1 < a.1) dE →
    (∀ p ∈ dE, p.1 < limit) →
    (segLabels fe dE limit nl ++ List.replicate (lastKey dE limit) fe).reverse =
      (List.range limit).map (fun idx =>
        match keyIdx dE idx with
        | some j => nl + j
        | none => fe) := by
  induction dE with
  | nil =>
      intro limit nl _ _
      rw [segLabels, lastKey, List.nil_append, List.reverse_replicate]
      rw [show (fun idx => match keyIdx ([] : List (Nat × Instruct)) idx with
            | some j => nl + j
            | none => fe) = (fun _ : Nat => fe) from rfl]
      rw [List.map_const', List.length_range]
  | cons p rest ih =>
      obtain ⟨id, v⟩ := p
      intro limit nl hpw hall
      rw [List.pairwise_cons] at hpw
      have hid : id < limit := hall _ (List.mem_cons_self _ _)
      rw [segLabels, lastKey, List.append_assoc, List.cons_append,
        List.reverse_append, List.reverse_cons, List.reverse_replicate,
        ih id (nl + 1) hpw.2 (fun q hq => hpw.1 q hq)]
      have hsplit : List.range limit =
          (List.range id ++ [id]) ++
            (List.range (limit - 1 - id)).map (id + 1 + ·) := by
        rw [← List.range_succ, ← List.range_add]
        congr 1
        omega
      rw [hsplit, List.map_append, List.map_append]
      congr 1
      · congr 1
        · refine (List.map_congr_left ?_).symm
          intro idx hidx
          have hlt : idx < id := List.mem_range.1 hidx
          have hne : ¬ id = idx := by omega
          show (match keyIdx ((id, v) :: rest) idx with
            | some j => nl + j
            | none => fe) =
            (match keyIdx rest idx with
            | some j => nl + 1 + j
            | none => fe)
          rw [keyIdx, if_neg hne]
          cases keyIdx rest idx with
          | none => rfl
          | some j =>
              show nl + (j + 1) = nl + 1 + j
              omega
        · show [nl] = [(match keyIdx ((id, v) :: rest) id with
            | some j => nl + j
            | none => fe)]
          rw [keyIdx, if_pos rfl]
          rfl
      · rw [List.map_map]
        have hconst : List.map
            ((fun idx => match keyIdx ((id, v) :: rest) idx with
              | some j => nl + j
              | none => fe) ∘ fun x => id + 1 + x)
            (List.range (limit - 1 - id)) =
            List.map (fun _ : Nat => fe) (List.range (limit - 1 - id)) := by
          refine List.map_congr_left ?_
          intro k hk
          have hne : ¬ id = id + 1 + k := by omega
          show (match keyIdx ((id, v) :: rest) (id + 1 + k) with
            | some j => nl + j
            | none => fe) = fe
          rw [keyIdx, if_neg hne,
            keyIdx_eq_none rest (id + 1 + k)
              (fun q hq => by have := hpw.1 q hq; omega)]
          rfl
        rw [hconst, List.map_const', List.length_range]

theorem ascHandlers_append (env : EmitEnv) (pos : Nat) (g : JtGen)
    (xs : List (Nat × Instruct)) (y : Nat × Instruct) :
    ∀ nl, ascHandlers env pos g (xs ++ [y]) nl =
      ascHandlers env pos g xs (nl + 1) ++
        [Instruct.label nl :: lowerExit env pos g y.2] := by
  induction xs with
  | nil =>
      intro nl
      obtain ⟨k, i⟩ := y
      simp [ascHandlers]
  | cons p rest ih =>
      obtain ⟨k, i⟩ := p
      intro nl
      rw [List.cons_append, ascHandlers, ascHandlers, ih nl, List.cons_append]
      have hlen : (rest ++ [y]).length = rest.length + 1 := by
        rw [List.length_append, List.length_cons, List.length_nil]
      rw [hlen]
      have harith : nl + (rest.length + 1) = nl + 1 + rest.length := by omega
      rw [harith]

theorem segBodies_reverse (env : EmitEnv) (pos : Nat) (g : JtGen)
    (dE : List (Nat × Instruct)) :
    ∀ nl, (segBodies env pos g dE nl).reverse =
      ascHandlers env pos g dE.reverse nl := by
  induction dE with
  | nil => intro nl; rfl
  | cons p rest ih =>
      obtain ⟨id, i⟩ := p
      intro nl
      rw [segBodies, List.reverse_cons, List.reverse_cons, ih (nl + 1),
        ascHandlers_append]

theorem mem_of_getLast_some {l : List (Nat × Instruct)} {q : Nat × Instruct}
    (h : l.getLast? = some q) : q ∈ l := by
  rcases List.mem_getLast?_eq_getLast (Option.mem_def.mpr h) with ⟨hne, rfl⟩
  exact List.getLast_mem hne

theorem le_getLast_of_sorted (l : List (Nat × Instruct)) (q : Nat × Instruct)
    (hs : List.Pairwise (fun a b : Nat × Instruct => a.1 < b.1) l)
    (hlast : l.getLast? = some q) :
    ∀ r ∈ l, r.1 ≤ q.1 := by
  induction l with
  | nil => cases hlast
  | cons a t ih =>
      intro r hr
      cases t with
      | nil =>
          rw [List.getLast?_singleton, Option.some_inj] at hlast
          rcases List.mem_singleton.1 hr with rfl
          rw [hlast]
      | cons b u =>
          rw [List.getLast?_cons_cons] at hlast
          rw [List.pairwise_cons] at hs
          rcases List.mem_cons.1 hr with rfl | hr2
          · exact le_of_lt (hs.1 q (mem_of_getLast_some hlast))
          · exact ih hs.2 hlast r hr2

/-- C4: for an exit map with at least two entries (sorted with strictly
ascending ids, as the scanner produces, and holding only exit
instructions) whose largest id is `maxId`, `emit_finally_epilogue` emits
the guard followed by a switch whose label vector has length `maxId + 1`:
position `idx` holds a freshly generated handler label when `idx` is a
captured exit id (the entry at ascending position `j` out of `n` entries
gets the fresh label `nextLabel + (n - 1 - j)`, labels being generated
while walking the map in descending order) and the `finally_end` label
otherwise; the handler fragments (`ascHandlers`) follow the switch in
ascending exit-id order, each being its handler label followed by the
re-lowered exit. -/
theorem claim_C4_epilogue_switch (env : EmitEnv) (pos : Nat) (st : EmitState)
    (entries : LabelMap) (fe : Nat) (maxId : Nat)
    (hsorted : List.Pairwise (fun a b : Nat × Instruct => a.1 < b.1) entries)
    (hlen : 2 ≤ entries.length)
    (hex : ∀ p ∈ entries, isExitInstr p.2 = true)
    (hmax : (entries.getLast?).map Prod.fst = some maxId) :
    emit_finally_epilogue env pos st entries fe =
      some ([Instruct.srcLoc pos, Instruct.isSetL env.labelLocal,
             Instruct.jmpZ fe, Instruct.cGetL env.labelLocal,
             Instruct.switch ((List.range (maxId + 1)).map (fun idx =>
               match keyIdx entries idx with
               | some j => st.nextLabel + (entries.length - 1 - j)
               | none => fe))] ++
            (ascHandlers env pos st.jtg entries st.nextLabel).flatten,
        { st with nextLabel := st.nextLabel + entries.length }) := by
  obtain ⟨p, t1, rfl⟩ : ∃ a t, entries = a :: t := by
    cases entries with
    | nil => exact absurd hlen (by simp)
    | cons a t => exact ⟨a, t, rfl⟩
  obtain ⟨q, rest, rfl⟩ : ∃ b r, t1 = b :: r := by
    cases t1 with
    | nil => exact absurd hlen (by simp)
    | cons b r => exact ⟨b, r, rfl⟩
  have hred : emit_finally_epilogue env pos st (p :: q :: rest) fe =
      match (p :: q :: rest).getLast? with
      | none => none
      | some (mId, _) =>
          match epilogueLoop env pos fe ((p :: q :: rest).reverse) (mId + 1)
              [] [] st with
          | none => none
          | some (labels, bodies, limit, st') =>
              some ([Instruct.srcLoc pos, Instruct.isSetL env.labelLocal,
                     Instruct.jmpZ fe, Instruct.cGetL env.labelLocal,
                     Instruct.switch
                       ((labels ++ List.replicate limit fe).reverse)] ++
                    (bodies.reverse).flatten, st') := by
    rw [emit_finally_epilogue] <;> simp
  cases hql : (p :: q :: rest).getLast? with
  | none =>
      rw [hql, Option.map_none'] at hmax
      cases hmax
  | some qlast =>
      obtain ⟨mId, mv⟩ := qlast
      rw [hql, Option.map_some', Option.some_inj] at hmax
      subst hmax
      have hdesc : List.Pairwise (fun a b : Nat × Instruct => b.1 < a.1)
          ((p :: q :: rest).reverse) := by
        rw [List.pairwise_reverse]
        exact hsorted
      have hle := le_getLast_of_sorted _ _ hsorted hql
      have hltall : ∀ r ∈ (p :: q :: rest).reverse, r.1 < mId + 1 := by
        intro r hr
        have := hle r (List.mem_reverse.1 hr)
        omega
      have hexall : ∀ r ∈ (p :: q :: rest).reverse, isExitInstr r.2 = true :=
        fun r hr => hex r (List.mem_reverse.1 hr)
      have hswitch : ((segLabels fe ((p :: q :: rest).reverse) (mId + 1)
            st.nextLabel) ++
          List.replicate (lastKey ((p :: q :: rest).reverse) (mId + 1)) fe).reverse =
          (List.range (mId + 1)).map (fun idx =>
            match keyIdx (p :: q :: rest) idx with
            | some j => st.nextLabel + ((p :: q :: rest).length - 1 - j)
            | none => fe) := by
        rw [segLabels_reverse_eq fe _ (mId + 1) st.nextLabel hdesc hltall]
        refine List.map_congr_left ?_
        intro idx _
        have hne : List.Pairwise (fun a b : Nat × Instruct => a.1 ≠ b.1)
            (p :: q :: rest) := hsorted.imp (fun h => Nat.ne_of_lt h)
        rw [keyIdx_reverse _ _ hne]
        cases keyIdx (p :: q :: rest) idx with
        | none => rfl
        | some j => rfl
      have hbodies : (segBodies env pos st.jtg ((p :: q :: rest).reverse)
            st.nextLabel).reverse =
          ascHandlers env pos st.jtg (p :: q :: rest) st.nextLabel := by
        rw [segBodies_reverse, List.reverse_reverse]
      have hlength : ((p :: q :: rest).reverse).length = (p :: q :: rest).length :=
        List.length_reverse _
      rw [hred, hql]
      simp only [epilogueLoop_eq env pos fe ((p :: q :: rest).reverse) (mId + 1)
        [] [] st hdesc hltall hexall, List.nil_append, hswitch, hbodies, hlength]

theorem claim_C4_epilogue_switch_witness :
    emit_finally_epilogue (EmitEnv.mk 0 1 0 [] []) 7
        (EmitState.mk 10 (JtGen.mk [] [] none 0))
        [(0, Instruct.continue_ 1), (1, Instruct.break_ 1), (3, Instruct.retC)]
        99 =
      some ([Instruct.srcLoc 7, Instruct.isSetL 0, Instruct.jmpZ 99,
             Instruct.cGetL 0,
             Instruct.switch ((List.range (3 + 1)).map (fun idx =>
               match keyIdx [(0, Instruct.continue_ 1), (1, Instruct.break_ 1),
                   (3, Instruct.retC)] idx with
               | some j => 10 + (3 - 1 - j)
               | none => 99))] ++
            (ascHandlers (EmitEnv.mk 0 1 0 [] []) 7 (JtGen.mk [] [] none 0)
              [(0, Instruct.continue_ 1), (1, Instruct.break_ 1),
               (3, Instruct.retC)] 10).flatten,
        EmitState.mk 13 (JtGen.mk [] [] none 0)) :=
  claim_C4_epilogue_switch (EmitEnv.mk 0 1 0 [] []) 7
    (EmitState.mk 10 (JtGen.mk [] [] none 0))
    [(0, Instruct.continue_ 1), (1, Instruct.break_ 1), (3, Instruct.retC)]
    99 3 (by decide) (by decide) (by decide) (by decide)
